import Mathlib

/-!
Shallow embedding of `src/test_fw/src/main.rs`, a minimal Cortex-M3 test
firmware: two statically allocated `u32` globals (`COUNTER`, initially 0,
and `TEST_VALUE`, initially `0xDEADBEEF`), an entry function `main` that
writes `0x12345678` into `TEST_VALUE` once and then loops forever
(increment `COUNTER` with `wrapping_add`, then run a delay loop of 1000
`nop` instructions), an exported inspection hook `test_function` that
returns `COUNTER`, and an auxiliary `trigger_hardfault` that performs a
single volatile read from the invalid address `0xFFFF_FFFF`.

Machine integers are modelled as `Nat` with explicit reduction mod `2^32`
where the source uses wrapping arithmetic.  The control flow of `main` is
modelled as a micro-step machine: one micro-step per store, increment, or
`nop`, so that every instant a halted debugger could observe corresponds
to a state of the machine.
-/

namespace TestFw

/-- Modulus of the 32-bit unsigned integers used by the firmware. -/
def U32_MOD : Nat := 2 ^ 32

/-- Embedding of Rust `u32::wrapping_add`: addition reduced mod `2^32`. -/
def wrapping_add (x y : Nat) : Nat := (x + y) % U32_MOD

/-- Number of iterations of the delay loop `for _ in 0..1000` in `main`. -/
def DELAY_ITERS : Nat := 1000

/-- Program points of `main`, one per micro-instruction.

* `init` — about to execute the startup store `TEST_VALUE = 0x12345678`;
* `loopInc` — about to execute `COUNTER = COUNTER.wrapping_add(1)`;
* `loopDelay k` — inside the delay loop, about to execute `asm::nop()`
  for the `k`-th time in this iteration (`k < 1000`). -/
inductive Pc where
  | init : Pc
  | loopInc : Pc
  | loopDelay (k : Nat) : Pc
deriving DecidableEq

/-- A firmware state: the program point of `main` together with the two
statically allocated globals `COUNTER` and `TEST_VALUE`. -/
structure FwState where
  pc : Pc
  counter : Nat
  test_value : Nat
deriving DecidableEq

/-- The reset state: entry into `main`, `COUNTER = 0` and
`TEST_VALUE = 0xDEADBEEF` (their static initializers). -/
def resetState : FwState := ⟨Pc.init, 0, 0xDEADBEEF⟩

/-- One micro-step of `main`:

* at `init`, store `0x12345678` into `TEST_VALUE` and fall into the loop;
* at `loopInc`, `COUNTER = COUNTER.wrapping_add(1)` and enter the delay loop;
* at `loopDelay k`, execute `asm::nop()` (no data effect); continue with
  the delay loop if iterations remain, otherwise return to the loop head. -/
def step (s : FwState) : FwState :=
  match s.pc with
  | Pc.init => ⟨Pc.loopInc, s.counter, 0x12345678⟩
  | Pc.loopInc => ⟨Pc.loopDelay 0, wrapping_add s.counter 1, s.test_value⟩
  | Pc.loopDelay k =>
      if k + 1 < DELAY_ITERS then ⟨Pc.loopDelay (k + 1), s.counter, s.test_value⟩
      else ⟨Pc.loopInc, s.counter, s.test_value⟩

/-- The state of the firmware after `n` micro-steps from reset. -/
def run (n : Nat) : FwState := step^[n] resetState

/-- Number of micro-steps in one full iteration of the main loop:
the increment plus the 1000 `nop`s of the delay loop. -/
def ITER_STEPS : Nat := 1 + DELAY_ITERS

/-- The micro-instruction executed from a given program point. -/
inductive Instr where
  | storeTestValue : Instr
  | incCounter : Instr
  | nop : Instr
deriving DecidableEq

/-- Which micro-instruction the next `step` from program point `p` executes. -/
def instrAt : Pc → Instr
  | Pc.init => Instr.storeTestValue
  | Pc.loopInc => Instr.incCounter
  | Pc.loopDelay _ => Instr.nop

/-- Number of `nop` instructions among the next `m` micro-instructions
executed from state `s`. -/
def countNops : Nat → FwState → Nat
  | 0, _ => 0
  | m + 1, s => (if instrAt s.pc = Instr.nop then 1 else 0) + countNops m (step s)

/-- A program point is in the `Running` phase (the infinite loop) when it
is not the transient `Initializing` point. -/
def isRunning : Pc → Bool
  | Pc.init => false
  | Pc.loopInc => true
  | Pc.loopDelay _ => true

/-- Embedding of `test_function`: reads the global `COUNTER` and returns
it; explicit state passing makes its (absent) state effect visible. -/
def test_function (s : FwState) : Nat × FwState := (s.counter, s)

/-- Fault condition signalled to the execution environment. -/
inductive FaultSignal where
  | HardwareFault : FaultSignal
deriving DecidableEq

/-- The fixed invalid address read by `trigger_hardfault`
(`0xFFFF_FFFF as *const u32` in the source). -/
def INVALID_ADDR : Nat := 0xFFFFFFFF

/-- Modelled from the spec: the linker-assigned addresses of the two
globals are not part of `src/`; §3 of the spec requires only that both
live at fixed, statically known, distinct RAM addresses.  Two concrete
word-aligned RAM addresses stand in for the linker's choice. -/
def COUNTER_ADDR : Nat := 0x20000000

/-- Modelled from the spec: see `COUNTER_ADDR`. -/
def TEST_VALUE_ADDR : Nat := 0x20000004

/-- The firmware's data memory, viewed by address: the two statically
allocated globals are the only locations this program owns; every other
address maps to no valid location of this firmware. -/
def memAt (s : FwState) (a : Nat) : Option Nat :=
  if a = COUNTER_ADDR then some s.counter
  else if a = TEST_VALUE_ADDR then some s.test_value
  else none

/-- Modelled from the spec: the semantics of `core::ptr::read_volatile`
and the platform's fault behavior are not part of `src/`.  Per §4.2 and
the glossary, a volatile read is performed exactly as written, and a read
from an address outside every valid memory region signals a
`HardwareFault` to the surrounding execution environment. -/
def read_volatile (s : FwState) (a : Nat) : Except FaultSignal Nat :=
  match memAt s a with
  | some v => Except.ok v
  | none => Except.error FaultSignal.HardwareFault

/-- Embedding of `trigger_hardfault`: its body is a single
`read_volatile` of `INVALID_ADDR`.  The first component is the outcome
(`Except.ok` would be a normal return to the caller, `Except.error` a
fault signalled to the environment); the second lists the volatile reads
the invocation performs, in order. -/
def trigger_hardfault (s : FwState) : Except FaultSignal (Unit × FwState) × List Nat :=
  match read_volatile s INVALID_ADDR with
  | Except.ok _ => (Except.ok ((), s), [INVALID_ADDR])
  | Except.error f => (Except.error f, [INVALID_ADDR])

/-! ### Basic lemmas about the step machine -/

/-- Stepping from any non-`init` point keeps the machine out of `init`
and leaves `TEST_VALUE` untouched. -/
lemma step_preserve (s : FwState) (h : s.pc ≠ Pc.init) :
    (step s).pc ≠ Pc.init ∧ (step s).test_value = s.test_value := by
  cases hp : s.pc with
  | init => exact absurd hp h
  | loopInc => simp [step, hp]
  | loopDelay k =>
      simp only [step, hp]
      split <;> simp

/-- From micro-step 1 on, the machine is never again at `init`, and
`TEST_VALUE` holds `0x12345678`. -/
lemma run_ge_one (n : Nat) (h : 1 ≤ n) :
    (run n).pc ≠ Pc.init ∧ (run n).test_value = 0x12345678 := by
  induction n with
  | zero => omega
  | succ m ih =>
      cases Nat.eq_or_lt_of_le h with
      | inl h1 =>
          have hm : m = 0 := by omega
          subst hm
          constructor
          · intro hc
            exact absurd hc (by decide)
          · decide
      | inr h1 =>
          have hm : 1 ≤ m := by omega
          have ihm := ih hm
          have hrun : run (m + 1) = step (run m) := Function.iterate_succ_apply' step m resetState
          rw [hrun]
          have hp := step_preserve (run m) ihm.1
          exact ⟨hp.1, by rw [hp.2, ihm.2]⟩

/-- Running the delay loop to its end: from `loopDelay k`, after the
remaining `j + 1` nops (where `k + (j + 1) = 1000`), control is back at
the loop head with both globals unchanged. -/
lemma delay_run (j : Nat) : ∀ k c t, k + (j + 1) = DELAY_ITERS →
    step^[j + 1] ⟨Pc.loopDelay k, c, t⟩ = ⟨Pc.loopInc, c, t⟩ := by
  induction j with
  | zero =>
      intro k c t h
      have hk : k = DELAY_ITERS - 1 := by omega
      subst hk
      show step ⟨Pc.loopDelay (DELAY_ITERS - 1), c, t⟩ = ⟨Pc.loopInc, c, t⟩
      simp [step, DELAY_ITERS]
  | succ j ih =>
      intro k c t h
      have hlt : k + 1 < DELAY_ITERS := by omega
      have hstep : step ⟨Pc.loopDelay k, c, t⟩ = ⟨Pc.loopDelay (k + 1), c, t⟩ := by
        simp [step, hlt]
      rw [Function.iterate_succ_apply, hstep]
      exact ih (k + 1) c t (by omega)

/-- One full iteration of the main loop from the loop head: the counter
is incremented with wraparound and `TEST_VALUE` is unchanged. -/
lemma loop_iteration (c t : Nat) :
    step^[ITER_STEPS] ⟨Pc.loopInc, c, t⟩ = ⟨Pc.loopInc, wrapping_add c 1, t⟩ := by
  have h1 : ITER_STEPS = (DELAY_ITERS - 1) + 1 + 1 := by decide
  rw [h1, Function.iterate_succ_apply]
  have hstep : step ⟨Pc.loopInc, c, t⟩ = ⟨Pc.loopDelay 0, wrapping_add c 1, t⟩ := rfl
  rw [hstep]
  exact delay_run (DELAY_ITERS - 1) 0 (wrapping_add c 1) t (by decide)

/-- The program point after a step depends only on the program point
before it, not on the data. -/
lemma step_pc_congr (s s' : FwState) (h : s.pc = s'.pc) : (step s).pc = (step s').pc := by
  cases hp : s.pc with
  | init =>
      have hp' : s'.pc = Pc.init := by rw [← h, hp]
      simp [step, hp, hp']
  | loopInc =>
      have hp' : s'.pc = Pc.loopInc := by rw [← h, hp]
      simp [step, hp, hp']
  | loopDelay k =>
      have hp' : s'.pc = Pc.loopDelay k := by rw [← h, hp]
      simp only [step, hp, hp']
      split <;> rfl

/-- The stream of micro-instructions executed, and hence the count of
`nop`s, depends only on the starting program point. -/
lemma countNops_pc_congr (m : Nat) : ∀ s s' : FwState, s.pc = s'.pc →
    countNops m s = countNops m s' := by
  induction m with
  | zero => intro s s' _; rfl
  | succ k ih =>
      intro s s' h
      simp only [countNops, h]
      rw [ih (step s) (step s') (step_pc_congr s s' h)]

/-- A program point other than `init` is in the `Running` phase. -/
lemma isRunning_of_ne_init (p : Pc) (h : p ≠ Pc.init) : isRunning p = true := by
  cases p with
  | init => exact absurd rfl h
  | loopInc => rfl
  | loopDelay k => rfl

/-! ### Claim theorems -/

/-- C1: for every value of the 32-bit counter, one iteration of the main
loop increments the counter by exactly 1 mod `2^32`; starting from
`0xFFFFFFFF` the increment yields `0`; the increment is a total function
(it never traps). -/
theorem counter_increment_wraps (c t : Nat) (h : c < U32_MOD) :
    (step^[ITER_STEPS] ⟨Pc.loopInc, c, t⟩).counter = (c + 1) % U32_MOD ∧
    (step^[ITER_STEPS] ⟨Pc.loopInc, 0xFFFFFFFF, t⟩).counter = 0 := by
  constructor
  · rw [loop_iteration]
    exact rfl
  · rw [loop_iteration]
    show wrapping_add 0xFFFFFFFF 1 = 0
    decide

/-- Witness for C1 at counter value `0xFFFFFFFF`. -/
theorem counter_increment_wraps_witness :
    (step^[ITER_STEPS] ⟨Pc.loopInc, 0xFFFFFFFF, 0⟩).counter = (0xFFFFFFFF + 1) % U32_MOD :=
  (counter_increment_wraps 0xFFFFFFFF 0 (by decide)).1

/-- C2: the test value location holds `0xDEADBEEF` at every instant
before the startup write executes, `0x12345678` at every instant after
it, and no operation of the program other than the startup write (the
step from program point `init`) modifies it. -/
theorem test_value_lifecycle :
    (∀ n, (run n).pc = Pc.init → (run n).test_value = 0xDEADBEEF) ∧
    (∀ n, (run n).pc ≠ Pc.init → (run n).test_value = 0x12345678) ∧
    (∀ s : FwState, s.pc ≠ Pc.init → (step s).test_value = s.test_value) := by
  refine ⟨?_, ?_, ?_⟩
  · intro n hn
    cases n with
    | zero => rfl
    | succ m => exact absurd hn (run_ge_one (m + 1) (by omega)).1
  · intro n hn
    cases n with
    | zero => exact absurd rfl hn
    | succ m => exact (run_ge_one (m + 1) (by omega)).2
  · intro s hs
    exact (step_preserve s hs).2

/-- Witness for C2 at the instants 0 and 1. -/
theorem test_value_lifecycle_witness :
    (run 0).test_value = 0xDEADBEEF ∧ (run 1).test_value = 0x12345678 :=
  ⟨test_value_lifecycle.1 0 (by decide), test_value_lifecycle.2.1 1 (by decide)⟩

/-- C3: on startup, before entering the loop, the program
unconditionally writes `0x12345678` into the test value location; this
write executes exactly once (the machine is at `init` only at instant 0)
and, being a total function of the state, has no failure mode. -/
theorem startup_write :
    step resetState = ⟨Pc.loopInc, 0, 0x12345678⟩ ∧
    ∀ n, ((run n).pc = Pc.init ↔ n = 0) := by
  refine ⟨rfl, ?_⟩
  intro n
  cases n with
  | zero => exact iff_of_true rfl rfl
  | succ m => exact iff_of_false (run_ge_one (m + 1) (by omega)).1 (by omega)

/-- Witness for C3 at instant 0. -/
theorem startup_write_witness : (run 0).pc = Pc.init :=
  (startup_write.2 0).mpr rfl

/-- C4: in every program state, `test_function` takes no input beyond
the implicit program state and returns exactly the value stored at the
counter location. -/
theorem test_function_reads_counter (s : FwState) :
    (test_function s).1 = s.counter ∧ memAt s COUNTER_ADDR = some (test_function s).1 :=
  ⟨rfl, by simp [memAt, test_function]⟩

/-- C5: in every program state, `test_function` leaves both globals (and
the whole state) unchanged. -/
theorem test_function_no_side_effect (s : FwState) :
    (test_function s).2.counter = s.counter ∧
    (test_function s).2.test_value = s.test_value ∧
    (test_function s).2 = s :=
  ⟨rfl, rfl, rfl⟩

/-- C6: from any state, `trigger_hardfault` performs exactly one
volatile read, at the fixed invalid address `0xFFFFFFFF`, never returns
normally (its outcome is never `Except.ok`), and signals `HardwareFault`
to the execution environment. -/
theorem trigger_hardfault_faults (s : FwState) :
    (trigger_hardfault s).1 = Except.error FaultSignal.HardwareFault ∧
    (trigger_hardfault s).2 = [INVALID_ADDR] :=
  ⟨rfl, rfl⟩

/-- C7: in the state reached immediately after entry and before the loop
begins, the test value location reads `0xDEADBEEF` and the counter
location reads `0x00000000`. -/
theorem initial_observation :
    run 0 = resetState ∧
    resetState.test_value = 0xDEADBEEF ∧ resetState.counter = 0 ∧
    memAt resetState TEST_VALUE_ADDR = some 0xDEADBEEF ∧
    memAt resetState COUNTER_ADDR = some 0 := by
  refine ⟨rfl, rfl, rfl, ?_, ?_⟩ <;> decide

set_option maxRecDepth 8000 in
/-- C8: every iteration of the main loop executes exactly 1000 `nop`
instructions (among the 1001 micro-instructions of one iteration from
the loop head, exactly `DELAY_ITERS = 1000` are `nop`s), and a `nop`
step changes neither the counter nor the test value. -/
theorem delay_is_thousand_nops (c t : Nat) :
    countNops ITER_STEPS ⟨Pc.loopInc, c, t⟩ = DELAY_ITERS ∧
    ∀ s : FwState, instrAt s.pc = Instr.nop →
      (step s).counter = s.counter ∧ (step s).test_value = s.test_value := by
  constructor
  · rw [countNops_pc_congr ITER_STEPS ⟨Pc.loopInc, c, t⟩ ⟨Pc.loopInc, 0, 0⟩ rfl]
    decide
  · intro s hs
    cases hp : s.pc with
    | init => rw [hp] at hs; exact absurd hs (by decide)
    | loopInc => rw [hp] at hs; exact absurd hs (by decide)
    | loopDelay k =>
        simp only [step, hp]
        split <;> exact ⟨rfl, rfl⟩

/-- Witness for C8: a `nop` step at `loopDelay 0` preserves both globals. -/
theorem delay_is_thousand_nops_witness :
    (step ⟨Pc.loopDelay 0, 41, 7⟩).counter = 41 ∧
    (step ⟨Pc.loopDelay 0, 41, 7⟩).test_value = 7 :=
  (delay_is_thousand_nops 0 0).2 ⟨Pc.loopDelay 0, 41, 7⟩ (by decide)

/-- C9: the entry function never returns and the loop never terminates:
the `Running` phase is entered at micro-step 1, every step from a
`Running` state leads to a `Running` state, and every reachable state
from micro-step 1 on is `Running`. -/
theorem main_never_returns :
    isRunning (run 1).pc = true ∧
    (∀ s : FwState, isRunning s.pc = true → isRunning (step s).pc = true) ∧
    (∀ n, 1 ≤ n → isRunning (run n).pc = true) := by
  refine ⟨rfl, ?_, ?_⟩
  · intro s hs
    cases hp : s.pc with
    | init => rw [hp] at hs; exact absurd hs (by decide)
    | loopInc => simp [step, hp, isRunning]
    | loopDelay k =>
        simp only [step, hp]
        split <;> rfl
  · intro n hn
    exact isRunning_of_ne_init (run n).pc (run_ge_one n hn).1

/-- Witness for C9 at instants 1 and 2. -/
theorem main_never_returns_witness : isRunning (run 2).pc = true :=
  main_never_returns.2.2 2 (by decide)

/-- C10: absent external modification, after exactly `n` complete
iterations of the main loop from reset the counter holds exactly
`n % 2^32`; in particular the counter starts at 0. -/
theorem counter_after_iterations (n : Nat) :
    resetState.counter = 0 ∧
    run (1 + ITER_STEPS * n) = ⟨Pc.loopInc, n % U32_MOD, 0x12345678⟩ := by
  refine ⟨rfl, ?_⟩
  induction n with
  | zero => decide
  | succ m ih =>
      have h : 1 + ITER_STEPS * (m + 1) = ITER_STEPS + (1 + ITER_STEPS * m) := by ring
      show step^[1 + ITER_STEPS * (m + 1)] resetState = _
      rw [h, Function.iterate_add_apply]
      have hrun : step^[1 + ITER_STEPS * m] resetState = run (1 + ITER_STEPS * m) := rfl
      rw [hrun, ih, loop_iteration]
      have hmod : wrapping_add (m % U32_MOD) 1 = (m + 1) % U32_MOD := by
        simp only [wrapping_add, U32_MOD]
        omega
      rw [hmod]

end TestFw
